import Mathlib

/-!
# A goroutine pool: `pool.go` and `worker.go`

Shallow embedding of the pool (`Pool`, `Worker`) and of its operations.

* A `*Worker` is an index into `Pool.heap`, the list of every `Worker` object
  allocated so far (allocating a `Worker` appends one). Such a pointer is never nil.
* A buffered channel is the list of the values it holds; a send on a full
  channel blocks, which the embedding renders as the result `none`.
* Every operation is one atomic step (the mutex `mu` is therefore not a field).
  A worker holds its task in its channel until the step in which it finishes the
  task and recycles itself.
* A task is an opaque closure: running it neither panics nor touches the pool.
* `time.Now()` is an argument of the operations that read the clock.
* `int32` arithmetic (`atomic.AddInt32`, the subtraction in `Free`) wraps.
-/

set_option autoImplicit false

namespace GoPool

/-! ## Basic types -/

/-- Identity of a non-nil task closure. -/
abbrev Task := Nat

/-- Go type `f func()`; `none` is the nil func, which a worker reads as the
shutdown sentinel. -/
abbrev f := Option Task

/-! A `time.Time` and a `time.Duration` are both an `Int` count of nanoseconds. -/

/-- The largest `time.Duration`, an `int64`. -/
def maxDuration : Int := 2 ^ 63 - 1

/-- The smallest `time.Duration`. -/
def minDuration : Int := -(2 ^ 63)

/-- `time.Millisecond` -/
def Millisecond : Int := 1000000

/-- `time.Second` -/
def Second : Int := 1000 * Millisecond

/-- Go `Time.Sub`: the difference, saturated to the range of `Duration`. -/
def Sub (t u : Int) : Int := max minDuration (min (t - u) maxDuration)

/-- Wrap-around of `int32` arithmetic (two-complement). -/
def wrap32 (x : Int) : Int := (x + 2 ^ 31) % 2 ^ 32 - 2 ^ 31

/-- The values of Go type `int32`. -/
def isInt32 (x : Int) : Prop := -(2 ^ 31) ≤ x ∧ x ≤ 2 ^ 31 - 1

instance (x : Int) : Decidable (isInt32 x) := by unfold isInt32; infer_instance

/-- Errors of `context.Context.Err()`. -/
inductive CtxErr where
  | Canceled
  | DeadlineExceeded
deriving DecidableEq, Repr

/-- Go `error` values this package returns. -/
inductive error where
  | nil
  | ErrLack
  | ErrPoolClosed
  | ctx (e : CtxErr)
deriving DecidableEq, Repr

export error (ErrLack ErrPoolClosed)

/-- `const defaultMaxGoroutinesSize = 512 * 1024` -/
def defaultMaxGoroutinesSize : Int := 512 * 1024

/-- `const defaultMaxGoroutineIdleDuration = 10 * time.Second` -/
def defaultMaxGoroutineIdleDuration : Int := 10 * Second

/-- `const defaultBlockPollingInterval = 100 * time.Millisecond` -/
def defaultBlockPollingInterval : Int := 100 * Millisecond

/-! ## Data model -/

/-- `type Worker struct` together with the state of its goroutine. The back
pointer `pool` is implicit: there is one pool. -/
structure Worker where
  /-- Contents of `task chan f`, made with capacity 1. -/
  task : List f
  recycleTime : Int
  /-- The goroutine started by `run` has returned. -/
  exited : Bool
deriving DecidableEq, Repr

/-- `type Pool struct`. -/
structure Pool where
  /-- `once sync.Once` has fired. -/
  once : Bool
  capacity : Int
  running : Int
  expire : Int
  interval : Int
  /-- The slice of idle workers. -/
  workers : List Nat
  /-- `len(release)`, for `release chan sig` made with capacity 1. -/
  release : Nat
  /-- Every `Worker` object allocated so far; a `*Worker` is an index. -/
  heap : List Worker
deriving DecidableEq, Repr

/-! ## Operations -/

/-- `NewPool`. The goroutine it starts runs `clean`, see `cleanTicker`. -/
def NewPool (size : Int) (expire interval : Int) : Pool :=
  { once := false
    capacity := if size ≤ 0 then defaultMaxGoroutinesSize else size
    running := 0
    expire := if expire ≤ 0 then defaultMaxGoroutineIdleDuration else expire
    interval := if interval ≤ 0 then defaultBlockPollingInterval else interval
    workers := []
    release := 0
    heap := [] }

/-- `Pool.Running` -/
def Running (p : Pool) : Int := p.running

/-- `Pool.Free`: an `int32` subtraction. -/
def Free (p : Pool) : Int := wrap32 (p.capacity - p.running)

/-- `Pool.Cap` -/
def Cap (p : Pool) : Int := p.capacity

/-- `Pool.incrRunning`: `atomic.AddInt32(&p.running, 1)` -/
def incrRunning (p : Pool) : Pool := { p with running := wrap32 (p.running + 1) }

/-- `Pool.decrRunning`: `atomic.AddInt32(&p.running, -1)` -/
def decrRunning (p : Pool) : Pool := { p with running := wrap32 (p.running - 1) }

/-- The test `len(p.release) > 0` of `submit`, `AnywayGo` and `clean`. -/
def closed (p : Pool) : Bool := decide (p.release > 0)

/-- The channel send `w.task <- fn`: `none` when it blocks because the single slot
is taken (or when `w` is not an allocated worker). -/
def send (heap : List Worker) (w : Nat) (fn : f) : Option (List Worker) :=
  match heap[w]? with
  | none => none
  | some wk =>
    if wk.task.length < 1 then some (heap.set w { wk with task := wk.task ++ [fn] })
    else none

/-- `Pool.getWorker`: the pool afterwards and the worker returned (`none` is the
nil pointer). -/
def getWorker (p : Pool) : Pool × Option Nat :=
  match p.workers.getLast? with
  | none =>
    -- no idle workers: `n < 0`
    let isFull := decide (Running p ≥ Cap p)
    if !isFull then
      -- new worker to run
      let w := p.heap.length
      (incrRunning { p with heap := p.heap ++ [{ task := [], recycleTime := 0, exited := false }] },
        some w)
    else (p, none)
  | some w =>
    -- `w = p.workers[n]; p.workers = idleWorkers[:n]`
    ({ p with workers := p.workers.dropLast }, some w)

/-- `Pool.submit`: `none` when the handoff `w.task <- fn` blocks. -/
def submit (p : Pool) (fn : f) : Option (Pool × error) :=
  if closed p then some (p, ErrPoolClosed)
  else
    match getWorker p with
    | (p1, none) => some (p1, ErrLack)
    | (p1, some w) =>
      match send p1.heap w fn with
      | none => none
      | some heap => some ({ p1 with heap := heap }, error.nil)

/-- `Pool.Go` -/
def Go (p : Pool) (fn : f) : Option (Pool × error) := submit p fn

/-- `Pool.putWorker`, called by worker `worker` when the clock reads `now`. -/
def putWorker (p : Pool) (worker : Nat) (now : Int) : Pool :=
  { p with
    heap := match p.heap[worker]? with
      | none => p.heap
      | some wk => p.heap.set worker { wk with recycleTime := now }
    workers := p.workers ++ [worker] }

/-- One iteration of the loop of `Worker.run` for worker `w`: receive from
`w.task`; on nil decrement `running` and return, otherwise run the task and
recycle the worker. `none` when the worker cannot move (nothing to receive, or
the goroutine has returned). -/
def Worker.run (p : Pool) (w : Nat) (now : Int) : Option Pool :=
  match p.heap[w]? with
  | none => none
  | some wk =>
    if wk.exited then none
    else
      match wk.task with
      | [] => none
      | none :: buf =>
        some (decrRunning { p with heap := p.heap.set w { wk with task := buf, exited := true } })
      | some _ :: buf =>
        some (putWorker { p with heap := p.heap.set w { wk with task := buf } } w now)

/-- The `range` loop of `clean` over the rest of `idleWorkers` from index `i`
on, with the current value of `n`: the final `n` and the heap after the sends. -/
def cleanLoop (expire : Int) (currentTime : Int) :
    List Nat → Nat → Nat → List Worker → Option (Nat × List Worker)
  | [], _, n, heap => some (n, heap)
  | w :: rest, i, n, heap =>
    match heap[w]? with
    | none => none
    | some wk =>
      if Sub currentTime wk.recycleTime ≤ expire then some (n, heap)
      else
        match send heap w none with
        | none => none
        | some heap1 => cleanLoop expire currentTime rest (i + 1) i heap1

/-- One pass of the loop body of `Pool.clean` at clock reading `currentTime`:
the pool afterwards and whether `clean` returned. -/
def clean (p : Pool) (currentTime : Int) : Option (Pool × Bool) :=
  if p.workers.length = 0 ∧ Running p = 0 ∧ closed p then some (p, true)
  else
    match cleanLoop p.expire currentTime p.workers 0 0 p.heap with
    | none => none
    | some (n, heap) =>
      let n := n + 1
      if n ≥ p.workers.length then
        some ({ p with heap := heap, workers := p.workers.take 0 }, false)
      else
        some ({ p with heap := heap, workers := p.workers.drop n }, false)

/-- The period of the ticker that drives `clean`: `t := time.NewTicker(p.expire)`. -/
def cleanTicker (p : Pool) : Int := p.expire

/-- The clock readings at which the ticker of a pool created at `created` has
fired up to and including time `upTo`. -/
def ticks (p : Pool) (created upTo : Int) : List Int :=
  (List.range ((upTo - created) / cleanTicker p).toNat).map
    (fun (k : Nat) => created + ((k : Int) + 1) * cleanTicker p)

/-- The `range` loop of `Release`: the sentinel goes to every idle worker. -/
def releaseLoop : List Nat → List Worker → Option (List Worker)
  | [], heap => some heap
  | w :: rest, heap =>
    match send heap w none with
    | none => none
    | some heap1 => releaseLoop rest heap1

/-- `Pool.Release`: `none` when a send blocks. -/
def Release (p : Pool) : Option (Pool × error) :=
  if p.once then some (p, error.nil)
  else if p.release ≥ 1 then none
  else
    match releaseLoop p.workers p.heap with
    | none => none
    | some heap =>
      some ({ p with once := true, release := p.release + 1, heap := heap, workers := [] },
        error.nil)

/-- What a call of `TryGo` did. -/
structure TryGoResult where
  pool : Pool
  /-- The tasks the caller ran itself (`fn()`). -/
  ran : List Task
  /-- The lines written with `log.Printf`. -/
  log : List error
  /-- The caller called a nil func. -/
  nilCall : Bool
deriving DecidableEq, Repr

/-- `Pool.TryGo` -/
def TryGo (p : Pool) (fn : f) : Option TryGoResult :=
  match Go p fn with
  | none => none
  | some (p1, err) =>
    if err ≠ error.nil then
      let log := if err = ErrPoolClosed then [err] else []
      match fn with
      | none => some { pool := p1, ran := [], log := log, nilCall := true }
      | some t => some { pool := p1, ran := [t], log := log, nilCall := false }
    else some { pool := p1, ran := [], log := [], nilCall := false }

/-! ## Steps of the system -/

/-- The atomic steps: a submission, one loop iteration of a worker (finish the
task and recycle, or exit on the sentinel), one sweep pass, a call of `Release`. -/
inductive Step where
  | submit (fn : f)
  | work (w : Nat) (now : Int)
  | sweep (now : Int)
  | release
deriving DecidableEq, Repr

/-- The pool after one step; `none` when the step cannot be taken. A sweep pass is a
step also after `clean` has returned: by then no step changes the pool any more,
see `clean_returned_final`. -/
def step (p : Pool) : Step → Option Pool
  | .submit fn => (Go p fn).map Prod.fst
  | .work w now => Worker.run p w now
  | .sweep now => (clean p now).map Prod.fst
  | .release => (Release p).map Prod.fst

/-- The pool after a sequence of steps. -/
def run (p : Pool) : List Step → Option Pool
  | [] => some p
  | s :: rest => (step p s).bind (fun p1 => run p1 rest)

/-- Go `context.Context`, as `AnywayGo` uses it: whether `Done()` is ready at
the k-th `select`, and the value of `Err()`. -/
structure Context where
  done : Nat → Bool
  err : CtxErr

/-- The loop of `AnywayGo` without a context, `for p.Go(fn) != nil`, whose body is
`runtime.Gosched()`; `env` lists what the other goroutines do during each
`Gosched`. `none` when the loop is still turning once `env` is used up. -/
def spin (fn : f) : List (List Step) → Pool → Option (Pool × error)
  | [], p =>
    match Go p fn with
    | some (p1, error.nil) => some (p1, error.nil)
    | _ => none
  | e :: env, p =>
    match Go p fn with
    | none => none
    | some (p1, err) =>
      if err = error.nil then some (p1, error.nil)
      else (run p1 e).bind (spin fn env)

/-- The loop of `AnywayGo` with a context, a `for` around a `select`, from the k-th
`select` on. -/
def spinCtx (fn : f) (c : Context) : List (List Step) → Nat → Pool → Option (Pool × error)
  | [], k, p =>
    if c.done k then some (p, error.ctx c.err)
    else
      match Go p fn with
      | some (p1, error.nil) => some (p1, error.nil)
      | _ => none
  | e :: env, k, p =>
    if c.done k then some (p, error.ctx c.err)
    else
      match Go p fn with
      | none => none
      | some (p1, err) =>
        if err = error.nil then some (p1, error.nil)
        else (run p1 e).bind (spinCtx fn c env (k + 1))

/-- `Pool.AnywayGo`, with the variadic `ctx` as a list. -/
def AnywayGo (p : Pool) (fn : f) (ctx : List Context) (env : List (List Step)) :
    Option (Pool × error) :=
  if closed p then some (p, ErrPoolClosed)
  else
    match ctx with
    | [] => spin fn env p
    | c :: _ => spinCtx fn c env 0 p

/-! ## Notions used to state the properties -/

/-- The number of workers whose goroutine has not returned. -/
def alive (heap : List Worker) : Nat := heap.countP (fun wk => !wk.exited)

/-- Worker `w` is allocated, waits on an empty channel and has not returned. -/
def Idle (heap : List Worker) (w : Nat) : Prop :=
  ∃ wk, heap[w]? = some wk ∧ wk.task = [] ∧ wk.exited = false

/-- What holds of every pool state the steps can reach. -/
structure Inv (p : Pool) : Prop where
  cap32 : p.capacity ≤ 2 ^ 31 - 1
  count : p.running = (alive p.heap : Int)
  bound : p.running ≤ p.capacity
  slot : ∀ wk ∈ p.heap, wk.task.length ≤ 1
  idle : ∀ w ∈ p.workers, Idle p.heap w
  nodup : p.workers.Nodup
  rel : p.release = if p.once = true then 1 else 0

/-- The worker once a value is put in its channel. -/
def post (fn : f) (wk : Worker) : Worker := { wk with task := wk.task ++ [fn] }

/-- The heap once `fn` is put in the channel of each worker of the list. -/
def postAll (fn : f) : List Nat → List Worker → List Worker
  | [], heap => heap
  | w :: rest, heap =>
    postAll fn rest (match heap[w]? with
      | some wk => heap.set w (post fn wk)
      | none => heap)

/-- The test of `clean` on worker `w`: idle for longer than `expire`. -/
def expired (expire currentTime : Int) (heap : List Worker) (w : Nat) : Bool :=
  match heap[w]? with
  | some wk => decide (Sub currentTime wk.recycleTime > expire)
  | none => false

/-- The workers a sweep pass at `now` sends the sentinel to: the leading
expired workers of the idle list. -/
def swept (p : Pool) (now : Int) : List Nat :=
  p.workers.takeWhile (expired p.expire now p.heap)

/-- The worker whose channel holds task `t` (the first such). -/
def holder (heap : List Worker) (t : Task) : Nat :=
  heap.findIdx (fun wk => decide (some t ∈ wk.task))

/-- One round: task `t` is submitted, then the worker it was handed to finishes
it when the clock reads `now` and recycles itself. -/
def round (p : Pool) (t : Task) (now : Int) : Option Pool :=
  match submit p (some t) with
  | some (p1, error.nil) => Worker.run p1 (holder p1.heap t) now
  | _ => none

/-- Rounds in sequence, one for each task and completion time. -/
def rounds (p : Pool) : List (Task × Int) → Option Pool
  | [] => some p
  | (t, now) :: rest => (round p t now).bind (fun p1 => rounds p1 rest)

/-- The pool built by `NewPool` after a round that ended at `now`: one worker,
idle. -/
def afterRound (size expire interval now : Int) : Pool :=
  { NewPool size expire interval with
    running := 1, workers := [0], heap := [⟨[], now, false⟩] }

/-- A pool of capacity 1 whose single worker holds task 7. -/
def oneBusy : Pool :=
  { NewPool 1 0 0 with running := 1, heap := [⟨[some 7], 0, false⟩] }

/-- A pool of capacity 2 whose single worker is idle since time 5. -/
def oneIdle : Pool :=
  { NewPool 2 0 0 with running := 1, workers := [0], heap := [⟨[], 5, false⟩] }

/-- The pool `oneIdle` after `Release`: the sentinel is in the channel of the worker. -/
def oneIdleReleased : Pool :=
  { NewPool 2 0 0 with once := true, release := 1, running := 1, heap := [⟨[none], 5, false⟩] }

/-- The pool `oneIdleReleased` after the worker has read the sentinel. -/
def oneIdleGone : Pool :=
  { NewPool 2 0 0 with once := true, release := 1, running := 0, heap := [⟨[], 5, true⟩] }

/-- A pool of capacity 3 with two idle workers, 1 the more recently recycled. -/
def twoIdle : Pool :=
  { NewPool 3 0 0 with
    running := 2, workers := [0, 1], heap := [⟨[], 5, false⟩, ⟨[], 6, false⟩] }

/-- The clock reading at which worker `w` was last recycled. -/
def recycledAt (heap : List Worker) (w : Nat) : Int :=
  match heap[w]? with
  | some wk => wk.recycleTime
  | none => 0

/-- The readings of the clock along the steps never go back, from `c` on
(`time.Now()` is monotonic). -/
def clockOrdered : Int → List Step → Bool
  | _, [] => true
  | c, .work _ now :: rest => decide (c ≤ now) && clockOrdered now rest
  | c, .sweep now :: rest => decide (c ≤ now) && clockOrdered now rest
  | c, .submit _ :: rest => clockOrdered c rest
  | c, .release :: rest => clockOrdered c rest

/-- The idle list is in the order of recycling, and no idle worker was recycled
later than `c`. -/
def Ordered (p : Pool) (c : Int) : Prop :=
  p.workers.Pairwise (fun a b => recycledAt p.heap a ≤ recycledAt p.heap b) ∧
  ∀ w ∈ p.workers, recycledAt p.heap w ≤ c

/-! ## Lemmas -/

theorem getWorker_nil_iff (p : Pool) :
    (getWorker p).2 = none ↔ p.workers = [] ∧ Running p ≥ Cap p := by
  unfold getWorker
  cases hl : p.workers.getLast? with
  | none =>
    have hw : p.workers = [] := List.getLast?_eq_none_iff.mp hl
    by_cases hfull : Running p ≥ Cap p <;> simp [hw, hfull]
  | some w =>
    have hw : p.workers ≠ [] := by
      intro h; rw [h] at hl; simp at hl
    simp [hw]

theorem getWorker_nil_pool (p : Pool) (h : (getWorker p).2 = none) : (getWorker p).1 = p := by
  have h2 := (getWorker_nil_iff p).mp h
  unfold getWorker
  simp [h2.1, h2.2]

theorem submit_err_cases (p p' : Pool) (fn : f) (e : error) (h : submit p fn = some (p', e)) :
    (e = ErrPoolClosed ∧ closed p = true ∧ p' = p) ∨
    (e = ErrLack ∧ closed p = false ∧ (getWorker p).2 = none ∧ p' = p) ∨
    (e = error.nil ∧ closed p = false ∧ ∃ w heap, (getWorker p).2 = some w ∧
      send (getWorker p).1.heap w fn = some heap ∧ p' = { (getWorker p).1 with heap := heap }) := by
  unfold submit at h
  by_cases hc : closed p = true
  · simp [hc] at h
    exact Or.inl ⟨h.2.symm, hc, h.1.symm⟩
  · simp only [hc] at h
    have hc' : closed p = false := by simpa using hc
    rcases hg : getWorker p with ⟨p1, w⟩
    rw [hg] at h
    cases w with
    | none =>
      simp at h
      have := getWorker_nil_pool p (by rw [hg])
      rw [hg] at this
      exact Or.inr (Or.inl ⟨h.2.symm, hc', rfl, by rw [← h.1]; exact this⟩)
    | some w =>
      simp only at h
      cases hs : send p1.heap w fn with
      | none => rw [hs] at h; simp at h
      | some heap =>
        rw [hs] at h
        simp at h
        exact Or.inr (Or.inr ⟨h.2.symm, hc', w, heap, rfl, hs, h.1.symm⟩)

theorem countP_set_of_getElem? {α : Type} (q : α → Bool) :
    ∀ (l : List α) (i : Nat) (a b : α), l[i]? = some a →
      (l.set i b).countP q + (if q a then 1 else 0) = l.countP q + (if q b then 1 else 0)
  | [], i, a, b, h => by simp at h
  | x :: l, 0, a, b, h => by
    simp at h
    subst h
    simp [List.countP_cons]
    omega
  | x :: l, i + 1, a, b, h => by
    simp at h
    have ih := countP_set_of_getElem? q l i a b h
    simp [List.countP_cons]
    omega

theorem alive_set_same (heap : List Worker) (w : Nat) (wk wk1 : Worker)
    (h : heap[w]? = some wk) (he : wk1.exited = wk.exited) :
    alive (heap.set w wk1) = alive heap := by
  have := countP_set_of_getElem? (fun wk => !wk.exited) heap w wk wk1 h
  simp only [he] at this
  unfold alive
  omega

theorem alive_set_exit (heap : List Worker) (w : Nat) (wk wk1 : Worker)
    (h : heap[w]? = some wk) (he : wk.exited = false) (he1 : wk1.exited = true) :
    alive (heap.set w wk1) + 1 = alive heap := by
  have := countP_set_of_getElem? (fun wk => !wk.exited) heap w wk wk1 h
  simp [he, he1] at this
  unfold alive
  omega

theorem alive_append_one (heap : List Worker) (wk : Worker) (he : wk.exited = false) :
    alive (heap ++ [wk]) = alive heap + 1 := by
  simp [alive, List.countP_append, he]

theorem send_free (heap : List Worker) (w : Nat) (wk : Worker) (fn : f)
    (h : heap[w]? = some wk) (ht : wk.task = []) :
    send heap w fn = some (heap.set w { wk with task := [fn] }) := by
  simp [send, h, ht]

theorem getWorker_idle (p : Pool) (ws : List Nat) (w : Nat) (h : p.workers = ws ++ [w]) :
    getWorker p = ({ p with workers := ws }, some w) := by
  simp [getWorker, h]

theorem getWorker_new (p : Pool) (h : p.workers = []) (hfree : Running p < Cap p) :
    getWorker p =
      ({ p with heap := p.heap ++ [{ task := [], recycleTime := 0, exited := false }],
                running := wrap32 (p.running + 1) }, some p.heap.length) := by
  have : ¬ (Cap p ≤ Running p) := by omega
  simp [getWorker, h, this, incrRunning]

theorem getWorker_full (p : Pool) (h : p.workers = []) (hfull : Running p ≥ Cap p) :
    getWorker p = (p, none) := by
  simp [getWorker, h, hfull]

theorem submit_closed (p : Pool) (fn : f) (h : closed p = true) :
    submit p fn = some (p, ErrPoolClosed) := by
  simp [submit, h]

theorem submit_full (p : Pool) (fn : f) (hc : closed p = false) (h : p.workers = [])
    (hfull : Running p ≥ Cap p) : submit p fn = some (p, ErrLack) := by
  simp [submit, hc, getWorker_full p h hfull]

theorem submit_idle (p : Pool) (fn : f) (ws : List Nat) (w : Nat) (wk : Worker)
    (hc : closed p = false) (h : p.workers = ws ++ [w]) (hw : p.heap[w]? = some wk)
    (ht : wk.task = []) :
    submit p fn =
      some ({ p with workers := ws, heap := p.heap.set w { wk with task := [fn] } },
        error.nil) := by
  simp [submit, hc, getWorker_idle p ws w h, send_free p.heap w wk fn hw ht]

theorem submit_new (p : Pool) (fn : f) (hc : closed p = false) (h : p.workers = [])
    (hfree : Running p < Cap p) :
    submit p fn =
      some ({ p with heap := p.heap ++ [{ task := [fn], recycleTime := 0, exited := false }],
                     running := wrap32 (p.running + 1) }, error.nil) := by
  simp [submit, hc, getWorker_new p h hfree, send]

theorem wrap32_id (x : Int) (h1 : -(2 ^ 31) ≤ x) (h2 : x ≤ 2 ^ 31 - 1) : wrap32 x = x := by
  unfold wrap32
  omega

theorem Inv_NewPool (size expire interval : Int) (hsize : isInt32 size) :
    Inv (NewPool size expire interval) := by
  unfold isInt32 at hsize
  constructor
  · simp only [NewPool, defaultMaxGoroutinesSize]; split_ifs <;> omega
  · simp [NewPool, alive]
  · simp only [NewPool, defaultMaxGoroutinesSize]; split_ifs <;> omega
  · simp [NewPool]
  · simp [NewPool]
  · simp [NewPool]
  · simp [NewPool]

/-- Under the invariant a submission takes one of four courses, and never blocks. -/
theorem submit_cases (p : Pool) (fn : f) (hI : Inv p) :
    (closed p = true ∧ submit p fn = some (p, ErrPoolClosed)) ∨
    (closed p = false ∧ p.workers = [] ∧ Running p ≥ Cap p ∧ submit p fn = some (p, ErrLack)) ∨
    (closed p = false ∧ p.workers = [] ∧ Running p < Cap p ∧
      submit p fn =
        some ({ p with heap := p.heap ++ [{ task := [fn], recycleTime := 0, exited := false }],
                       running := p.running + 1 }, error.nil)) ∨
    (closed p = false ∧ ∃ ws w wk, p.workers = ws ++ [w] ∧ p.heap[w]? = some wk ∧
      wk.task = [] ∧ wk.exited = false ∧
      submit p fn =
        some ({ p with workers := ws, heap := p.heap.set w { wk with task := [fn] } },
          error.nil)) := by
  by_cases hc : closed p = true
  · exact Or.inl ⟨hc, submit_closed p fn hc⟩
  have hc : closed p = false := by simpa using hc
  rcases List.eq_nil_or_concat p.workers with hw | ⟨ws, w, hw⟩
  · by_cases hfull : Running p ≥ Cap p
    · exact Or.inr (Or.inl ⟨hc, hw, hfull, submit_full p fn hc hw hfull⟩)
    · have hfree : Running p < Cap p := by omega
      refine Or.inr (Or.inr (Or.inl ⟨hc, hw, hfree, ?_⟩))
      rw [submit_new p fn hc hw hfree]
      have h1 := hI.cap32
      have h2 := hI.count
      have h3 : p.running < p.capacity := hfree
      rw [wrap32_id (p.running + 1) (by omega) (by omega)]
  · have hw : p.workers = ws ++ [w] := by simpa using hw
    obtain ⟨wk, hwk, ht, he⟩ := hI.idle w (by simp [hw])
    exact Or.inr (Or.inr (Or.inr ⟨hc, ws, w, wk, hw, hwk, ht, he,
      submit_idle p fn ws w wk hc hw hwk ht⟩))

theorem Inv_submit (p p1 : Pool) (fn : f) (e : error) (hI : Inv p)
    (h : submit p fn = some (p1, e)) : Inv p1 := by
  rcases submit_cases p fn hI with ⟨_, hs⟩ | ⟨_, _, _, hs⟩ | ⟨_, hw, hfree, hs⟩ |
      ⟨_, ws, w, wk, hw, hwk, ht, he, hs⟩
  · rw [hs] at h; simp at h; rw [← h.1]; exact hI
  · rw [hs] at h; simp at h; rw [← h.1]; exact hI
  · rw [hs] at h; simp at h; rw [← h.1]
    have hfree : p.running < p.capacity := hfree
    constructor
    · exact hI.cap32
    · simp only; rw [alive_append_one _ _ rfl, hI.count]; push_cast; rfl
    · simp only; omega
    · intro x hx
      simp at hx
      rcases hx with hx | hx
      · exact hI.slot x hx
      · subst hx; simp
    · simp [hw]
    · simp [hw]
    · exact hI.rel
  · rw [hs] at h; simp at h; rw [← h.1]
    have hnd : (ws ++ [w]).Nodup := hw ▸ hI.nodup
    constructor
    · exact hI.cap32
    · simp only; rw [alive_set_same p.heap w wk _ hwk (by rfl)]; exact hI.count
    · exact hI.bound
    · intro x hx
      rcases List.mem_or_eq_of_mem_set hx with hx | hx
      · exact hI.slot x hx
      · subst hx; simp
    · intro w1 hw1
      obtain ⟨wk1, h1, h2, h3⟩ := hI.idle w1 (by simp [hw, hw1])
      have hne : w ≠ w1 := by
        intro heq; subst heq
        have := List.disjoint_of_nodup_append hnd hw1
        simp at this
      exact ⟨wk1, by simp [List.getElem?_set, hne, h1], h2, h3⟩
    · exact (List.nodup_append.mp hnd).1
    · exact hI.rel

theorem Inv_work (p p1 : Pool) (w : Nat) (now : Int) (hI : Inv p)
    (h : Worker.run p w now = some p1) : Inv p1 := by
  unfold Worker.run at h
  cases hwk : p.heap[w]? with
  | none => rw [hwk] at h; simp at h
  | some wk =>
    rw [hwk] at h
    simp only at h
    by_cases he : wk.exited = true
    · simp [he] at h
    have he : wk.exited = false := by simpa using he
    simp only [he] at h
    have hmem : wk ∈ p.heap := List.getElem?_mem hwk
    have hslot := hI.slot wk hmem
    have hlt : w < p.heap.length := by
      rcases List.getElem?_eq_some_iff.mp hwk with ⟨hlt, _⟩; exact hlt
    have hnotidle : wk.task ≠ [] → w ∉ p.workers := by
      intro hne hin
      obtain ⟨wk1, h1, h2, _⟩ := hI.idle w hin
      rw [hwk] at h1; simp at h1; subst h1; exact hne h2
    have hother : ∀ (x : Worker) (w1 : Nat), w1 ∈ p.workers → wk.task ≠ [] →
        ∃ wk1, (p.heap.set w x)[w1]? = some wk1 ∧ wk1.task = [] ∧ wk1.exited = false := by
      intro x w1 hw1 hne
      obtain ⟨wk1, h1, h2, h3⟩ := hI.idle w1 hw1
      have : w ≠ w1 := by
        intro heq; subst heq; exact hnotidle hne hw1
      exact ⟨wk1, by simp [List.getElem?_set, this, h1], h2, h3⟩
    cases ht : wk.task with
    | nil => rw [ht] at h; simp at h
    | cons m buf =>
      rw [ht] at h
      have hbuf : buf = [] := by
        rw [ht] at hslot; simp at hslot; exact hslot
      have hne : wk.task ≠ [] := by rw [ht]; simp
      cases m with
      | none =>
        simp at h
        rw [← h]
        have hal := alive_set_exit p.heap w wk { wk with task := buf, exited := true } hwk he rfl
        have hc := hI.count
        have h1 := hI.cap32
        have h2 := hI.bound
        have hrun : wrap32 (p.running - 1) = p.running - 1 := wrap32_id _ (by omega) (by omega)
        constructor
        · exact hI.cap32
        · simp only [decrRunning]; rw [hrun]; omega
        · simp only [decrRunning]; rw [hrun]; omega
        · intro x hx
          rcases List.mem_or_eq_of_mem_set hx with hx | hx
          · exact hI.slot x hx
          · subst hx; simp [hbuf]
        · intro w1 hw1
          exact hother _ w1 hw1 hne
        · exact hI.nodup
        · exact hI.rel
      | some t =>
        simp at h
        rw [← h]
        simp only [putWorker, List.getElem?_set, hlt, if_true]
        constructor
        · exact hI.cap32
        · simp only
          rw [alive_set_same (p.heap.set w _) w _ _ (by simp [List.getElem?_set, hlt]; rfl)
            (by rfl), alive_set_same p.heap w wk _ hwk (by simp [he])]
          exact hI.count
        · exact hI.bound
        · intro x hx
          simp only at hx
          rcases List.mem_or_eq_of_mem_set hx with hx | hx
          · rcases List.mem_or_eq_of_mem_set hx with hx | hx
            · exact hI.slot x hx
            · subst hx; simp [hbuf]
          · subst hx; simp [hbuf]
        · intro w1 hw1
          simp only at hw1 ⊢
          rcases List.mem_append.mp hw1 with hw1 | hw1
          · obtain ⟨wk1, h1, h2, h3⟩ := hother { wk with task := buf } w1 hw1 hne
            have : w ≠ w1 := by
              intro heq; subst heq; exact hnotidle hne hw1
            exact ⟨wk1, by simp [List.getElem?_set, this] at h1 ⊢; exact h1, h2, h3⟩
          · simp at hw1; subst hw1
            exact ⟨{ task := buf, recycleTime := now, exited := false },
              by simp [List.getElem?_set, hlt], hbuf, rfl⟩
        · simp only
          exact List.nodup_append.mpr ⟨hI.nodup, by simp, by simpa using hnotidle hne⟩
        · exact hI.rel

theorem send_post (heap : List Worker) (w : Nat) (wk : Worker) (fn : f)
    (h : heap[w]? = some wk) (ht : wk.task = []) :
    send heap w fn = some (heap.set w (post fn wk)) := by
  simp [send, h, ht, post]

theorem Idle_set_ne (heap : List Worker) (w w1 : Nat) (x : Worker) (hne : w ≠ w1)
    (h : Idle heap w1) : Idle (heap.set w x) w1 := by
  obtain ⟨wk, h1, h2, h3⟩ := h
  exact ⟨wk, by simp [List.getElem?_set, hne, h1], h2, h3⟩

theorem postAll_getElem?_of_not_mem (fn : f) :
    ∀ (S : List Nat) (heap : List Worker) (w : Nat), w ∉ S →
      (postAll fn S heap)[w]? = heap[w]?
  | [], _, _, _ => rfl
  | v :: rest, heap, w, h => by
    have hne : v ≠ w := fun e => h (by simp [e])
    have hrest : w ∉ rest := fun e => h (by simp [e])
    rw [postAll, postAll_getElem?_of_not_mem fn rest _ w hrest]
    cases hv : heap[v]? with
    | none => rfl
    | some wk => simp [List.getElem?_set, hne]

theorem alive_postAll (fn : f) :
    ∀ (S : List Nat) (heap : List Worker), alive (postAll fn S heap) = alive heap
  | [], _ => rfl
  | v :: rest, heap => by
    rw [postAll, alive_postAll fn rest]
    cases hv : heap[v]? with
    | none => rfl
    | some wk => exact alive_set_same heap v wk _ hv rfl

theorem length_postAll (fn : f) :
    ∀ (S : List Nat) (heap : List Worker), (postAll fn S heap).length = heap.length
  | [], _ => rfl
  | v :: rest, heap => by
    rw [postAll, length_postAll fn rest]
    cases hv : heap[v]? with
    | none => rfl
    | some wk => simp

theorem slot_postAll (fn : f) :
    ∀ (S : List Nat) (heap : List Worker), S.Nodup → (∀ w ∈ S, Idle heap w) →
      (∀ wk ∈ heap, wk.task.length ≤ 1) → ∀ wk ∈ postAll fn S heap, wk.task.length ≤ 1
  | [], _, _, _, hs => hs
  | v :: rest, heap, hnd, hid, hs => by
    obtain ⟨wk, h1, h2, h3⟩ := hid v (by simp)
    have hnd' := List.nodup_cons.mp hnd
    rw [postAll, h1]
    apply slot_postAll fn rest _ hnd'.2
    · intro w hw
      exact Idle_set_ne heap v w _ (fun e => hnd'.1 (e ▸ hw)) (hid w (by simp [hw]))
    · intro x hx
      rcases List.mem_or_eq_of_mem_set hx with hx | hx
      · exact hs x hx
      · subst hx; simp [post, h2]

theorem releaseLoop_eq :
    ∀ (ws : List Nat) (heap : List Worker), ws.Nodup → (∀ w ∈ ws, Idle heap w) →
      releaseLoop ws heap = some (postAll none ws heap)
  | [], _, _, _ => rfl
  | v :: rest, heap, hnd, hid => by
    obtain ⟨wk, h1, h2, h3⟩ := hid v (by simp)
    have hnd' := List.nodup_cons.mp hnd
    rw [releaseLoop, send_post heap v wk none h1 h2, postAll, h1]
    apply releaseLoop_eq rest _ hnd'.2
    intro w hw
    exact Idle_set_ne heap v w _ (fun e => hnd'.1 (e ▸ hw)) (hid w (by simp [hw]))

theorem takeWhile_congr_mem {α : Type} (q r : α → Bool) :
    ∀ (l : List α), (∀ x ∈ l, q x = r x) → l.takeWhile q = l.takeWhile r
  | [], _ => rfl
  | x :: l, h => by
    have hx := h x (by simp)
    have ih := takeWhile_congr_mem q r l (fun y hy => h y (by simp [hy]))
    simp [List.takeWhile_cons, hx, ih]

theorem expired_set_ne (expire now : Int) (heap : List Worker) (w w1 : Nat) (x : Worker)
    (hne : w ≠ w1) : expired expire now (heap.set w x) w1 = expired expire now heap w1 := by
  simp [expired, List.getElem?_set, hne]

/-- The loop of `clean` sends the sentinel to the leading expired workers, and
leaves in `n` the index of the last of them (or `n` itself when there is none). -/
theorem cleanLoop_eq (expire now : Int) :
    ∀ (ws : List Nat) (i n : Nat) (heap : List Worker), ws.Nodup → (∀ w ∈ ws, Idle heap w) →
      cleanLoop expire now ws i n heap =
        some (if (ws.takeWhile (expired expire now heap)).length = 0 then n
              else i + (ws.takeWhile (expired expire now heap)).length - 1,
          postAll none (ws.takeWhile (expired expire now heap)) heap)
  | [], _, _, _, _, _ => by simp [cleanLoop, postAll]
  | v :: rest, i, n, heap, hnd, hid => by
    obtain ⟨wk, h1, h2, h3⟩ := hid v (by simp)
    have hnd' := List.nodup_cons.mp hnd
    by_cases hle : Sub now wk.recycleTime ≤ expire
    · have hex : expired expire now heap v = false := by
        simp [expired, h1, hle]
      simp [cleanLoop, h1, hle, List.takeWhile_cons, hex, postAll]
    · have hex : expired expire now heap v = true := by
        simp [expired, h1]; omega
      have hidle : ∀ w ∈ rest, Idle (heap.set v (post none wk)) w := by
        intro w hw
        exact Idle_set_ne heap v w _ (fun e => hnd'.1 (e ▸ hw)) (hid w (by simp [hw]))
      have htw : rest.takeWhile (expired expire now (heap.set v (post none wk))) =
          rest.takeWhile (expired expire now heap) := by
        apply takeWhile_congr_mem
        intro w hw
        exact expired_set_ne expire now heap v w _ (fun e => hnd'.1 (e ▸ hw))
      rw [cleanLoop]
      simp only [h1, hle, if_false]
      rw [send_post heap v wk none h1 h2]
      simp only
      rw [cleanLoop_eq expire now rest (i + 1) i _ hnd'.2 hidle, htw]
      simp only [List.takeWhile_cons, hex, if_true, postAll, h1, List.length_cons]
      congr 2
      rw [if_neg (Nat.succ_ne_zero _)]
      split_ifs <;> omega

/-- A sweep pass, in closed form: the sentinel goes to the leading expired
workers, and the idle list loses as many workers as that, but one at least. -/
theorem clean_eq (p : Pool) (now : Int) (hI : Inv p) :
    clean p now =
      if p.workers.length = 0 ∧ Running p = 0 ∧ closed p = true then some (p, true)
      else some ({ p with heap := postAll none (swept p now) p.heap,
                          workers := p.workers.drop (max (swept p now).length 1) }, false) := by
  unfold clean
  by_cases hret : p.workers.length = 0 ∧ Running p = 0 ∧ closed p = true
  · rw [if_pos hret, if_pos hret]
  · rw [if_neg hret, if_neg hret, cleanLoop_eq p.expire now p.workers 0 0 p.heap hI.nodup hI.idle]
    simp only
    have hn : (if (swept p now).length = 0 then 0 else 0 + (swept p now).length - 1) + 1 =
        max (swept p now).length 1 := by
      split_ifs <;> omega
    unfold swept at hn ⊢
    rw [hn]
    split_ifs with hge
    · rw [List.drop_of_length_le hge]; rfl
    · rfl

theorem mem_drop_not_mem_takeWhile (q : Nat → Bool) (ws : List Nat) (m : Nat) (w : Nat)
    (hnd : ws.Nodup) (hm : (ws.takeWhile q).length ≤ m) (hw : w ∈ ws.drop m) :
    w ∉ ws.takeWhile q := by
  have hsplit : ws.takeWhile q ++ ws.dropWhile q = ws := List.takeWhile_append_dropWhile q ws
  have hdrop : ws.drop m = (ws.dropWhile q).drop (m - (ws.takeWhile q).length) := by
    conv_lhs => rw [← hsplit]
    rw [List.drop_append_eq_append_drop, List.drop_of_length_le hm]
    rfl
  rw [hdrop] at hw
  have hw' : w ∈ ws.dropWhile q := List.mem_of_mem_drop hw
  rw [← hsplit] at hnd
  intro hin
  exact List.disjoint_of_nodup_append hnd hin hw'

theorem Inv_clean (p p1 : Pool) (now : Int) (b : Bool) (hI : Inv p)
    (h : clean p now = some (p1, b)) : Inv p1 := by
  rw [clean_eq p now hI] at h
  split_ifs at h with hret
  · simp at h; rw [← h.1]; exact hI
  · simp at h; rw [← h.1]
    constructor
    · exact hI.cap32
    · simp only; rw [alive_postAll]; exact hI.count
    · exact hI.bound
    · exact slot_postAll none _ _ (hI.nodup.sublist (List.takeWhile_sublist _))
        (fun w hw => hI.idle w ((List.takeWhile_sublist _).subset hw)) hI.slot
    · intro w hw
      simp only at hw
      have hnot := mem_drop_not_mem_takeWhile (expired p.expire now p.heap) p.workers _ w
        hI.nodup (le_max_left _ _) hw
      obtain ⟨wk, h1, h2, h3⟩ := hI.idle w (List.mem_of_mem_drop hw)
      exact ⟨wk, by
        simp only [swept]; rw [postAll_getElem?_of_not_mem none _ _ w hnot]; exact h1, h2, h3⟩
    · exact hI.nodup.sublist (List.drop_sublist _ _)
    · exact hI.rel

/-- `Release`, in closed form. -/
theorem Release_eq (p : Pool) (hI : Inv p) :
    Release p =
      if p.once = true then some (p, error.nil)
      else some ({ p with once := true, release := 1, heap := postAll none p.workers p.heap,
                          workers := [] }, error.nil) := by
  unfold Release
  by_cases ho : p.once = true
  · rw [if_pos ho, if_pos ho]
  · have ho' : p.once = false := by simpa using ho
    have hr : p.release = 0 := by
      have := hI.rel; simpa [ho'] using this
    rw [if_neg ho, if_neg ho, if_neg (by omega), releaseLoop_eq p.workers p.heap hI.nodup hI.idle]
    simp [hr]

theorem Inv_Release (p p1 : Pool) (e : error) (hI : Inv p)
    (h : Release p = some (p1, e)) : Inv p1 := by
  rw [Release_eq p hI] at h
  split_ifs at h with ho
  · simp at h; rw [← h.1]; exact hI
  · simp at h; rw [← h.1]
    constructor
    · exact hI.cap32
    · simp only; rw [alive_postAll]; exact hI.count
    · exact hI.bound
    · exact slot_postAll none _ _ hI.nodup hI.idle hI.slot
    · simp
    · simp
    · simp

theorem Inv_step (p p1 : Pool) (s : Step) (hI : Inv p) (h : step p s = some p1) : Inv p1 := by
  cases s with
  | submit fn =>
    simp only [step, Go, Option.map_eq_some'] at h
    obtain ⟨⟨q, e⟩, hq, rfl⟩ := h
    exact Inv_submit p q fn e hI hq
  | work w now => exact Inv_work p p1 w now hI h
  | sweep now =>
    simp only [step, Option.map_eq_some'] at h
    obtain ⟨⟨q, b⟩, hq, rfl⟩ := h
    exact Inv_clean p q now b hI hq
  | release =>
    simp only [step, Option.map_eq_some'] at h
    obtain ⟨⟨q, e⟩, hq, rfl⟩ := h
    exact Inv_Release p q e hI hq

theorem Inv_run : ∀ (steps : List Step) (p p1 : Pool), Inv p → run p steps = some p1 → Inv p1
  | [], p, p1, hI, h => by
    simp [run] at h; rw [← h]; exact hI
  | s :: rest, p, p1, hI, h => by
    simp only [run, Option.bind_eq_some] at h
    obtain ⟨q, hq, hrest⟩ := h
    exact Inv_run rest q p1 (Inv_step p q s hI hq) hrest

theorem closed_of_once (p : Pool) (hI : Inv p) (ho : p.once = true) : closed p = true := by
  have := hI.rel
  simp [ho] at this
  simp [closed, this]

theorem work_after (p q : Pool) (w : Nat) (now : Int) (hI : Inv p)
    (h : Worker.run p w now = some q) :
    q.once = p.once ∧ Running q ≤ Running p ∧ q.heap.length = p.heap.length := by
  unfold Worker.run at h
  cases hwk : p.heap[w]? with
  | none => rw [hwk] at h; simp at h
  | some wk =>
    rw [hwk] at h
    simp only at h
    by_cases he : wk.exited = true
    · simp [he] at h
    have he : wk.exited = false := by simpa using he
    simp only [he] at h
    cases ht : wk.task with
    | nil => rw [ht] at h; simp at h
    | cons m buf =>
      rw [ht] at h
      cases m with
      | none =>
        simp at h
        rw [← h]
        have hal := alive_set_exit p.heap w wk { wk with task := buf, exited := true } hwk he rfl
        have hc := hI.count
        have h1 := hI.cap32
        have h2 := hI.bound
        have hrun : wrap32 (p.running - 1) = p.running - 1 := wrap32_id _ (by omega) (by omega)
        refine ⟨rfl, ?_, by simp [decrRunning]⟩
        simp only [Running, decrRunning]
        omega
      | some t =>
        simp at h
        rw [← h]
        refine ⟨rfl, le_refl _, ?_⟩
        simp only [putWorker]
        split <;> simp

theorem step_after_close (p q : Pool) (s : Step) (hI : Inv p) (ho : p.once = true)
    (h : step p s = some q) :
    q.once = true ∧ Running q ≤ Running p ∧ q.heap.length = p.heap.length := by
  cases s with
  | submit fn =>
    simp only [step, Go, submit_closed p fn (closed_of_once p hI ho), Option.map_some',
      Option.some.injEq] at h
    rw [← h]; exact ⟨ho, le_refl _, rfl⟩
  | work w now =>
    have := work_after p q w now hI h
    exact ⟨by rw [this.1]; exact ho, this.2.1, this.2.2⟩
  | sweep now =>
    simp only [step, clean_eq p now hI] at h
    split_ifs at h
    · simp at h; rw [← h]; exact ⟨ho, le_refl _, rfl⟩
    · simp at h; rw [← h]; exact ⟨ho, le_refl _, by simp [length_postAll]⟩
  | release =>
    simp only [step, Release_eq p hI, ho, if_true, Option.map_some', Option.some.injEq] at h
    rw [← h]; exact ⟨ho, le_refl _, rfl⟩

theorem run_after_close :
    ∀ (steps : List Step) (p q : Pool), Inv p → p.once = true → run p steps = some q →
      q.once = true ∧ Running q ≤ Running p ∧ q.heap.length = p.heap.length
  | [], p, q, _, ho, h => by
    simp [run] at h; rw [← h]; exact ⟨ho, le_refl _, rfl⟩
  | s :: rest, p, q, hI, ho, h => by
    simp only [run, Option.bind_eq_some] at h
    obtain ⟨r, hr, hrest⟩ := h
    have h1 := step_after_close p r s hI ho hr
    have h2 := run_after_close rest r q (Inv_step p r s hI hr) h1.1 hrest
    exact ⟨h2.1, le_trans h2.2.1 h1.2.1, by rw [h2.2.2, h1.2.2]⟩

theorem round_fresh (size expire interval : Int) (t : Task) (now : Int) :
    round (NewPool size expire interval) t now = some (afterRound size expire interval now) := by
  have hc : closed (NewPool size expire interval) = false := by simp [closed, NewPool]
  have hfree : Running (NewPool size expire interval) < Cap (NewPool size expire interval) := by
    simp only [Running, Cap, NewPool, defaultMaxGoroutinesSize]
    split_ifs <;> omega
  unfold round
  rw [submit_new _ (some t) hc rfl hfree]
  simp [Worker.run, holder, List.findIdx_cons, putWorker, afterRound, NewPool, wrap32]

theorem round_again (size expire interval : Int) (t : Task) (now0 now : Int) :
    round (afterRound size expire interval now0) t now =
      some (afterRound size expire interval now) := by
  have hc : closed (afterRound size expire interval now0) = false := by
    simp [closed, afterRound, NewPool]
  unfold round
  rw [submit_idle _ (some t) [] 0 ⟨[], now0, false⟩ hc rfl rfl rfl]
  simp [Worker.run, holder, List.findIdx_cons, putWorker, afterRound, NewPool]

theorem rounds_again (size expire interval : Int) :
    ∀ (tasks : List (Task × Int)) (now0 : Int),
      ∃ now, rounds (afterRound size expire interval now0) tasks =
        some (afterRound size expire interval now)
  | [], now0 => ⟨now0, rfl⟩
  | (t, now1) :: rest, now0 => by
    obtain ⟨now, h⟩ := rounds_again size expire interval rest now1
    exact ⟨now, by simp [rounds, round_again, h]⟩

/-- A submission that returns nil has put the task in the channel of a worker. -/
theorem submit_nil_handed (p q : Pool) (fn : f) (h : submit p fn = some (q, error.nil)) :
    ∃ (w : Nat) (wk : Worker), q.heap[w]? = some wk ∧ fn ∈ wk.task := by
  rcases submit_err_cases p q fn _ h with h1 | h1 | ⟨_, _, w, heap, _, hsend, hq⟩
  · exact absurd h1.1 (by decide)
  · exact absurd h1.1 (by decide)
  · unfold send at hsend
    cases hwk : (getWorker p).1.heap[w]? with
    | none => rw [hwk] at hsend; simp at hsend
    | some wk =>
      rw [hwk] at hsend
      simp only at hsend
      split_ifs at hsend
      simp only [Option.some.injEq] at hsend
      have hlt : w < (getWorker p).1.heap.length := by
        rcases List.getElem?_eq_some_iff.mp hwk with ⟨hlt, _⟩; exact hlt
      refine ⟨w, { wk with task := wk.task ++ [fn] }, ?_, by simp⟩
      rw [hq, ← hsend]
      simp [List.getElem?_set, hlt]

theorem spin_result (fn : f) :
    ∀ (env : List (List Step)) (p q : Pool) (e : error),
      spin fn env p = some (q, e) →
        e = error.nil ∧ ∃ p1, submit p1 fn = some (q, error.nil)
  | [], p, q, e, h => by
    unfold spin at h
    split at h
    · rename_i p1 hg
      simp at h
      exact ⟨h.2.symm, p, by rw [← h.1]; exact hg⟩
    · simp at h
  | s :: env, p, q, e, h => by
    unfold spin at h
    cases hg : Go p fn with
    | none => rw [hg] at h; simp at h
    | some r =>
      obtain ⟨p1, err⟩ := r
      rw [hg] at h
      simp only at h
      split_ifs at h with herr
      · simp at h
        exact ⟨h.2.symm, p, by rw [← h.1, ← herr]; exact hg⟩
      · simp only [Option.bind_eq_some] at h
        obtain ⟨p2, _, h2⟩ := h
        exact spin_result fn env p2 q e h2

theorem spinCtx_result (fn : f) (c : Context) :
    ∀ (env : List (List Step)) (k : Nat) (p q : Pool) (e : error),
      spinCtx fn c env k p = some (q, e) →
        (e = error.nil ∧ ∃ p1, submit p1 fn = some (q, error.nil)) ∨ e = error.ctx c.err
  | [], k, p, q, e, h => by
    unfold spinCtx at h
    split_ifs at h with hd
    · simp at h; exact Or.inr h.2.symm
    · split at h
      · rename_i p1 hg
        simp at h
        exact Or.inl ⟨h.2.symm, p, by rw [← h.1]; exact hg⟩
      · simp at h
  | s :: env, k, p, q, e, h => by
    unfold spinCtx at h
    split_ifs at h with hd
    · simp at h; exact Or.inr h.2.symm
    · cases hg : Go p fn with
      | none => rw [hg] at h; simp at h
      | some r =>
        obtain ⟨p1, err⟩ := r
        rw [hg] at h
        simp only at h
        split_ifs at h with herr
        · simp at h
          exact Or.inl ⟨h.2.symm, p, by rw [← h.1, ← herr]; exact hg⟩
        · simp only [Option.bind_eq_some] at h
          obtain ⟨p2, _, h2⟩ := h
          exact spinCtx_result fn c env (k + 1) p2 q e h2

theorem work_consts (p q : Pool) (w : Nat) (now : Int) (h : Worker.run p w now = some q) :
    q.capacity = p.capacity ∧ q.expire = p.expire ∧ q.interval = p.interval := by
  unfold Worker.run at h
  cases hwk : p.heap[w]? with
  | none => rw [hwk] at h; simp at h
  | some wk =>
    rw [hwk] at h
    simp only at h
    split_ifs at h
    cases ht : wk.task with
    | nil => rw [ht] at h; simp at h
    | cons m buf =>
      rw [ht] at h
      cases m with
      | none => simp at h; rw [← h]; exact ⟨rfl, rfl, rfl⟩
      | some t => simp at h; rw [← h]; exact ⟨rfl, rfl, rfl⟩

theorem step_consts (p q : Pool) (s : Step) (hI : Inv p) (h : step p s = some q) :
    q.capacity = p.capacity ∧ q.expire = p.expire ∧ q.interval = p.interval := by
  cases s with
  | submit fn =>
    simp only [step, Go] at h
    rcases submit_cases p fn hI with ⟨_, hs⟩ | ⟨_, _, _, hs⟩ | ⟨_, _, _, hs⟩ |
      ⟨_, _, _, _, _, _, _, _, hs⟩ <;>
    · rw [hs] at h; simp at h; rw [← h]; exact ⟨rfl, rfl, rfl⟩
  | work w now => exact work_consts p q w now h
  | sweep now =>
    simp only [step, clean_eq p now hI] at h
    split_ifs at h <;>
    · simp at h; rw [← h]; exact ⟨rfl, rfl, rfl⟩
  | release =>
    simp only [step, Release_eq p hI] at h
    split_ifs at h <;>
    · simp at h; rw [← h]; exact ⟨rfl, rfl, rfl⟩

theorem run_consts :
    ∀ (steps : List Step) (p q : Pool), Inv p → run p steps = some q →
      q.capacity = p.capacity ∧ q.expire = p.expire ∧ q.interval = p.interval
  | [], p, q, _, h => by
    simp [run] at h; rw [← h]; exact ⟨rfl, rfl, rfl⟩
  | s :: rest, p, q, hI, h => by
    simp only [run, Option.bind_eq_some] at h
    obtain ⟨r, hr, hrest⟩ := h
    have h1 := step_consts p r s hI hr
    have h2 := run_consts rest r q (Inv_step p r s hI hr) hrest
    exact ⟨h2.1.trans h1.1, h2.2.1.trans h1.2.1, h2.2.2.trans h1.2.2⟩

/-- Once a pass of `clean` has returned, no step changes the pool any more: the
sweep passes that `step` still allows after that are without effect. -/
theorem clean_returned_final (p q : Pool) (now : Int) (hI : Inv p)
    (h : clean p now = some (q, true)) :
    q = p ∧ ∀ s r, step p s = some r → r = p := by
  rw [clean_eq p now hI] at h
  split_ifs at h with hret
  swap
  · simp at h
  obtain ⟨hw, hrun, hc⟩ := hret
  refine ⟨by simp at h; exact h.symm, ?_⟩
  have hw : p.workers = [] := List.length_eq_zero.mp hw
  have hdead : ∀ wk ∈ p.heap, wk.exited = true := by
    have hcount := hI.count
    have h0 : alive p.heap = 0 := by
      have : p.running = 0 := hrun
      omega
    intro wk hwk
    have := List.countP_eq_zero.mp h0 wk hwk
    simpa using this
  have honce : p.once = true := by
    have hrel := hI.rel
    by_contra hne
    simp [hne] at hrel
    simp [closed, hrel] at hc
  intro s r hs
  cases s with
  | submit fn =>
    simp only [step, Go, submit_closed p fn hc, Option.map_some', Option.some.injEq] at hs
    exact hs.symm
  | work w t =>
    simp only [step, Worker.run] at hs
    cases hwk : p.heap[w]? with
    | none => rw [hwk] at hs; simp at hs
    | some wk =>
      rw [hwk] at hs
      simp [hdead wk (List.getElem?_mem hwk)] at hs
  | sweep t =>
    simp only [step, clean_eq p t hI, hw, hrun, hc, List.length_nil, and_self, if_true,
      Option.map_some', Option.some.injEq] at hs
    exact hs.symm
  | release =>
    simp only [step, Release_eq p hI, honce, if_true, Option.map_some', Option.some.injEq] at hs
    exact hs.symm

/-- On every reachable open pool whose idle list is `ws ++ [w]`, `submit` puts the
task in the channel of `w`, the last idle worker, leaves `ws` as the idle list,
allocates no worker and leaves `Running()` as it is. -/
theorem submit_takes_last_idle (size expire interval : Int) (hsize : isInt32 size)
    (steps : List Step) (p : Pool) (ws : List Nat) (w : Nat) (fn : f)
    (h : run (NewPool size expire interval) steps = some p)
    (hopen : closed p = false) (hw : p.workers = ws ++ [w]) :
    ∃ wk, p.heap[w]? = some wk ∧
      submit p fn =
        some ({ p with workers := ws, heap := p.heap.set w { wk with task := [fn] } },
          error.nil) := by
  have hI := Inv_run steps _ p (Inv_NewPool size expire interval hsize) h
  obtain ⟨wk, h1, h2, _⟩ := hI.idle w (by simp [hw])
  exact ⟨wk, h1, submit_idle p fn ws w wk hopen hw h1 h2⟩

/-- Rounds that no sweep pass comes between: on a fresh pool, whatever its capacity,
`Running()` is 1 after each round. -/
theorem rounds_without_sweep (size expire interval : Int) (tasks : List (Task × Int))
    (k : Nat) (hk : 1 ≤ k) (hk1 : k ≤ tasks.length) :
    ∃ p, rounds (NewPool size expire interval) (tasks.take k) = some p ∧ Running p = 1 := by
  cases htk : tasks.take k with
  | nil =>
    have : (tasks.take k).length = k := by simp [List.length_take]; omega
    rw [htk] at this; simp at this; omega
  | cons x rest =>
    obtain ⟨t, now1⟩ := x
    obtain ⟨now, h⟩ := rounds_again size expire interval rest now1
    exact ⟨afterRound size expire interval now,
      by simp [rounds, round_fresh size expire interval t now1, h], rfl⟩

theorem recycledAt_set (heap : List Worker) (w v : Nat) (wk wk1 : Worker)
    (h : heap[w]? = some wk) (hr : wk1.recycleTime = wk.recycleTime) :
    recycledAt (heap.set w wk1) v = recycledAt heap v := by
  have hlt : w < heap.length := by
    rcases List.getElem?_eq_some_iff.mp h with ⟨hlt, _⟩; exact hlt
  by_cases hv : w = v
  · subst hv
    simp [recycledAt, List.getElem?_set, hlt, h, hr]
  · simp [recycledAt, List.getElem?_set, hv]

theorem recycledAt_postAll (fn : f) :
    ∀ (S : List Nat) (heap : List Worker) (v : Nat),
      recycledAt (postAll fn S heap) v = recycledAt heap v
  | [], _, _ => rfl
  | u :: rest, heap, v => by
    rw [postAll, recycledAt_postAll fn rest]
    cases hu : heap[u]? with
    | none => rfl
    | some wk => exact recycledAt_set heap u v wk _ hu rfl

theorem Ordered_of_sublist (p q : Pool) (c c1 : Int) (hc : c ≤ c1)
    (hsub : q.workers.Sublist p.workers)
    (hsame : ∀ v, recycledAt q.heap v = recycledAt p.heap v) (h : Ordered p c) :
    Ordered q c1 := by
  constructor
  · have := h.1.sublist hsub
    simpa [hsame] using this
  · intro w hw
    rw [hsame]
    exact le_trans (h.2 w (hsub.subset hw)) hc

theorem Ordered_step (p q : Pool) (s : Step) (c c1 : Int) (hI : Inv p) (hO : Ordered p c)
    (hc : c ≤ c1) (hnow : ∀ w now, s = Step.work w now → now = c1)
    (h : step p s = some q) : Ordered q c1 := by
  cases s with
  | submit fn =>
    simp only [step, Go] at h
    rcases submit_cases p fn hI with ⟨_, hs⟩ | ⟨_, _, _, hs⟩ | ⟨_, hw, _, hs⟩ |
      ⟨_, ws, w, wk, hw, hwk, _, _, hs⟩
    · rw [hs] at h; simp at h; rw [← h]
      exact Ordered_of_sublist p p c c1 hc (List.Sublist.refl _) (fun _ => rfl) hO
    · rw [hs] at h; simp at h; rw [← h]
      exact Ordered_of_sublist p p c c1 hc (List.Sublist.refl _) (fun _ => rfl) hO
    · rw [hs] at h; simp at h; rw [← h]
      exact ⟨by simp [hw], by simp [hw]⟩
    · rw [hs] at h; simp at h; rw [← h]
      apply Ordered_of_sublist p _ c c1 hc _ _ hO
      · simp only [hw]; exact List.sublist_append_left ws [w]
      · intro v; exact recycledAt_set p.heap w v wk _ hwk rfl
  | sweep now =>
    simp only [step, clean_eq p now hI] at h
    split_ifs at h
    · simp at h; rw [← h]
      exact Ordered_of_sublist p p c c1 hc (List.Sublist.refl _) (fun _ => rfl) hO
    · simp at h; rw [← h]
      apply Ordered_of_sublist p _ c c1 hc _ _ hO
      · exact List.drop_sublist _ _
      · intro v; exact recycledAt_postAll none _ _ v
  | release =>
    simp only [step, Release_eq p hI] at h
    split_ifs at h
    · simp at h; rw [← h]
      exact Ordered_of_sublist p p c c1 hc (List.Sublist.refl _) (fun _ => rfl) hO
    · simp at h; rw [← h]
      exact ⟨by simp, by simp⟩
  | work w now =>
    have hn := hnow w now rfl
    subst hn
    simp only [step] at h
    unfold Worker.run at h
    cases hwk : p.heap[w]? with
    | none => rw [hwk] at h; simp at h
    | some wk =>
      rw [hwk] at h
      simp only at h
      by_cases he : wk.exited = true
      · simp [he] at h
      simp only [he] at h
      have hlt : w < p.heap.length := by
        rcases List.getElem?_eq_some_iff.mp hwk with ⟨hlt, _⟩; exact hlt
      cases ht : wk.task with
      | nil => rw [ht] at h; simp at h
      | cons m buf =>
        rw [ht] at h
        have hnot : w ∉ p.workers := by
          intro hin
          obtain ⟨wk1, h1, h2, _⟩ := hI.idle w hin
          rw [hwk] at h1; simp at h1; subst h1; rw [ht] at h2; simp at h2
        cases m with
        | none =>
          simp at h; rw [← h]
          apply Ordered_of_sublist p _ c now hc _ _ hO
          · exact List.Sublist.refl _
          · intro v; exact recycledAt_set p.heap w v wk _ hwk rfl
        | some t =>
          simp at h; rw [← h]
          simp only [putWorker, List.getElem?_set, hlt, if_true]
          have hother : ∀ (x y : Worker), ∀ v ∈ p.workers,
              recycledAt ((p.heap.set w x).set w y) v = recycledAt p.heap v := by
            intro x y v hv
            have hne : w ≠ v := fun e => hnot (e ▸ hv)
            simp [recycledAt, List.getElem?_set, hne]
          have hself : ∀ (x y : Worker), y.recycleTime = now →
              recycledAt ((p.heap.set w x).set w y) w = now := by
            intro x y hy
            simp [recycledAt, List.getElem?_set, hlt, hy]
          constructor
          · simp only
            rw [List.pairwise_append]
            refine ⟨?_, by simp, ?_⟩
            · exact hO.1.imp_of_mem (fun {a b} ha hb hab => by
                rw [hother _ _ a ha, hother _ _ b hb]; exact hab)
            · intro a ha b hb
              simp at hb; subst hb
              rw [hother _ _ a ha, hself _ _ rfl]
              exact le_trans (hO.2 a ha) hc
          · intro v hv
            simp only at hv ⊢
            rcases List.mem_append.mp hv with hv | hv
            · rw [hother _ _ v hv]; exact le_trans (hO.2 v hv) hc
            · simp at hv; subst hv; rw [hself _ _ rfl]

theorem Ordered_run :
    ∀ (steps : List Step) (p q : Pool) (c : Int), Inv p → Ordered p c →
      clockOrdered c steps = true → run p steps = some q → ∃ c1, Ordered q c1
  | [], p, q, c, _, hO, _, h => by
    simp [run] at h; rw [← h]; exact ⟨c, hO⟩
  | s :: rest, p, q, c, hI, hO, hclock, h => by
    simp only [run, Option.bind_eq_some] at h
    obtain ⟨r, hr, hrest⟩ := h
    have hIr := Inv_step p r s hI hr
    cases s with
    | submit fn =>
      simp only [clockOrdered] at hclock
      exact Ordered_run rest r q c hIr
        (Ordered_step p r _ c c hI hO (le_refl _) (fun _ _ e => by cases e) hr) hclock hrest
    | release =>
      simp only [clockOrdered] at hclock
      exact Ordered_run rest r q c hIr
        (Ordered_step p r _ c c hI hO (le_refl _) (fun _ _ e => by cases e) hr) hclock hrest
    | sweep now =>
      simp only [clockOrdered, Bool.and_eq_true, decide_eq_true_eq] at hclock
      exact Ordered_run rest r q now hIr
        (Ordered_step p r _ c now hI hO hclock.1 (fun _ _ e => by cases e) hr) hclock.2 hrest
    | work w now =>
      simp only [clockOrdered, Bool.and_eq_true, decide_eq_true_eq] at hclock
      exact Ordered_run rest r q now hIr
        (Ordered_step p r _ c now hI hO hclock.1
          (fun _ _ e => by cases e; rfl) hr) hclock.2 hrest

/-- With a clock that never goes back, the last worker of the idle list of a
reachable pool is the most recently recycled of the idle workers. -/
theorem last_idle_most_recent (size expire interval created : Int) (hsize : isInt32 size)
    (steps : List Step) (p : Pool) (ws : List Nat) (w : Nat)
    (h : run (NewPool size expire interval) steps = some p)
    (hclock : clockOrdered created steps = true) (hw : p.workers = ws ++ [w]) :
    ∀ v ∈ ws, recycledAt p.heap v ≤ recycledAt p.heap w := by
  have hI0 := Inv_NewPool size expire interval hsize
  have hO0 : Ordered (NewPool size expire interval) created :=
    ⟨by simp [NewPool], by simp [NewPool]⟩
  obtain ⟨c1, hO⟩ := Ordered_run steps _ p created hI0 hO0 hclock h
  have := hO.1
  rw [hw, List.pairwise_append] at this
  intro v hv
  exact this.2.2 v hv w (by simp)

/-! ## The claims -/

/-- C1: in every state reached from a pool built by `NewPool` through submissions,
worker iterations (finish and recycle, or exit on the sentinel), sweep passes and
calls of `Release`, each one atomic step, `0 ≤ Running() ≤ Cap()`; `Running()`
is the number of workers whose goroutine has not returned. -/
theorem C1_running_within_capacity (size expire interval : Int) (hsize : isInt32 size)
    (steps : List Step) (p : Pool)
    (h : run (NewPool size expire interval) steps = some p) :
    0 ≤ Running p ∧ Running p ≤ Cap p ∧ Running p = (alive p.heap : Int) := by
  have hI := Inv_run steps _ p (Inv_NewPool size expire interval hsize) h
  refine ⟨?_, hI.bound, hI.count⟩
  have := hI.count
  unfold Running
  omega

theorem C1_running_within_capacity_witness :
    isInt32 3 ∧
    run (NewPool 3 0 0) [.submit (some 7), .submit (some 8), .work 0 5, .work 1 6] =
      some twoIdle ∧
    (0 ≤ Running twoIdle ∧ Running twoIdle ≤ Cap twoIdle ∧
      Running twoIdle = (alive twoIdle.heap : Int)) :=
  ⟨by decide, by decide,
    C1_running_within_capacity 3 0 0 (by decide)
      [.submit (some 7), .submit (some 8), .work 0 5, .work 1 6] twoIdle (by decide)⟩

/-- C2: for every pool state and task, `submit` returns `ErrLack` exactly when the
pool is not closed, the idle list is empty and `Running() ≥ Cap()`; and when
`submit` returns an error, that error is `ErrLack` or `ErrPoolClosed` and the pool
state (idle list, running count, closed flag, every worker channel) is unchanged. -/
theorem C2_submit_errors (p : Pool) (fn : f) :
    ((∃ q, submit p fn = some (q, ErrLack)) ↔
      (closed p = false ∧ p.workers = [] ∧ Running p ≥ Cap p)) ∧
    (∀ q e, submit p fn = some (q, e) → e ≠ error.nil →
      (e = ErrLack ∨ e = ErrPoolClosed) ∧ q = p) := by
  constructor
  · constructor
    · rintro ⟨q, h⟩
      rcases submit_err_cases p q fn _ h with h1 | h1 | h1
      · exact absurd h1.1 (by decide)
      · exact ⟨h1.2.1, (getWorker_nil_iff p).mp h1.2.2.1⟩
      · exact absurd h1.1 (by decide)
    · rintro ⟨hc, hw, hfull⟩
      exact ⟨p, submit_full p fn hc hw hfull⟩
  · intro q e h hne
    rcases submit_err_cases p q fn _ h with h1 | h1 | h1
    · exact ⟨Or.inr h1.1, h1.2.2⟩
    · exact ⟨Or.inl h1.1, h1.2.2.2⟩
    · exact absurd h1.1 hne

theorem C2_submit_errors_witness :
    submit oneBusy (some 8) = some (oneBusy, ErrLack) ∧
    ((ErrLack = ErrLack ∨ ErrLack = ErrPoolClosed) ∧ oneBusy = oneBusy) :=
  ⟨by decide, (C2_submit_errors oneBusy (some 8)).2 oneBusy ErrLack (by decide) (by decide)⟩

/-- C3: once `Release` has been called on a pool (for the first time or not), in
every state reached afterwards every `submit` returns `ErrPoolClosed` and leaves the
state as it is, no step increments `Running()` or allocates a worker, and a further
`Release` returns nil and leaves the state as it is. -/
theorem C3_release_is_final (size expire interval : Int) (hsize : isInt32 size)
    (before after : List Step) (p0 p1 p2 : Pool) (e : error)
    (h0 : run (NewPool size expire interval) before = some p0)
    (h1 : Release p0 = some (p1, e))
    (h2 : run p1 after = some p2) :
    e = error.nil ∧
    (∀ fn, submit p2 fn = some (p2, ErrPoolClosed)) ∧
    (∀ s p3, step p2 s = some p3 →
      Running p3 ≤ Running p2 ∧ p3.heap.length = p2.heap.length) ∧
    Running p2 ≤ Running p1 ∧ p2.heap.length = p1.heap.length ∧
    Release p1 = some (p1, error.nil) ∧ Release p2 = some (p2, error.nil) := by
  have hI0 := Inv_run before _ p0 (Inv_NewPool size expire interval hsize) h0
  have hI1 := Inv_Release p0 p1 e hI0 h1
  have hI2 := Inv_run after p1 p2 hI1 h2
  have he : e = error.nil ∧ p1.once = true := by
    rw [Release_eq p0 hI0] at h1
    split_ifs at h1 with ho
    · simp at h1; exact ⟨h1.2.symm, by rw [← h1.1]; exact ho⟩
    · simp at h1; exact ⟨h1.2.symm, by rw [← h1.1]⟩
  have hrun := run_after_close after p1 p2 hI1 he.2 h2
  refine ⟨he.1, ?_, ?_, hrun.2.1, hrun.2.2, ?_, ?_⟩
  · intro fn
    exact submit_closed p2 fn (closed_of_once p2 hI2 hrun.1)
  · intro s p3 hs
    exact (step_after_close p2 p3 s hI2 hrun.1 hs).2
  · rw [Release_eq p1 hI1, if_pos he.2]
  · rw [Release_eq p2 hI2, if_pos hrun.1]

theorem C3_release_is_final_witness :
    isInt32 2 ∧
    run (NewPool 2 0 0) [.submit (some 7), .work 0 5] = some oneIdle ∧
    Release oneIdle = some (oneIdleReleased, error.nil) ∧
    run oneIdleReleased [.work 0 9] = some oneIdleGone ∧
    (∀ fn, submit oneIdleGone fn = some (oneIdleGone, ErrPoolClosed)) ∧
    Release oneIdleReleased = some (oneIdleReleased, error.nil) :=
  ⟨by decide, by decide, by decide, by decide,
    (C3_release_is_final 2 0 0 (by decide) [.submit (some 7), .work 0 5] [.work 0 9]
      oneIdle oneIdleReleased oneIdleGone error.nil (by decide) (by decide) (by decide)).2.1,
    by decide⟩

/-- C4, at the failing input: `NewPool(3, 0, 0)` is created at time 0 (capacity 3, idle
timeout 10 seconds); the worker of the first round recycles itself at time 5 and is
idle, unexpired, when the sweep fires at 10 seconds; that pass takes it off the idle
list without a sentinel, so the second round finds no idle worker and starts a new
one: after the second round `Running()` is 2. Without the sweep pass the same two
rounds leave `Running()` at 1. -/
theorem C4_reuse_lost_after_sweep :
    ticks (NewPool 3 0 0) 0 (10 * Second + 5) = [10 * Second] ∧
    (run (NewPool 3 0 0) [.submit (some 7), .work 0 5]).map
        (fun p => (Running p, p.workers, p.heap)) = some (1, [0], [⟨[], 5, false⟩]) ∧
    Sub (10 * Second) 5 ≤ (NewPool 3 0 0).expire ∧
    (run (NewPool 3 0 0) [.submit (some 7), .work 0 5, .sweep (10 * Second)]).map
        (fun p => (Running p, p.workers, p.heap)) = some (1, [], [⟨[], 5, false⟩]) ∧
    (run (NewPool 3 0 0) [.submit (some 7), .work 0 5, .sweep (10 * Second),
        .submit (some 8), .work 1 (10 * Second + 5)]).map
        (fun p => (Running p, Cap p, p.workers)) = some (2, 3, [1]) ∧
    (rounds (NewPool 3 0 0) [(7, 5), (8, 10 * Second + 5)]).map
        (fun p => (Running p, p.workers)) = some (1, [0]) := by
  decide

/-- C5, at the failing input: the pool is `NewPool(2, 0, 0)` created at time 0, with
an idle timeout of 10 seconds; its single worker was recycled at time 5 and the first
sweep fires at 10 seconds, when the worker has not expired: no worker is sent the
sentinel, yet the pass takes the worker off the idle list; its channel stays empty
and `Running()` stays 1. -/
theorem C5_sweep_drops_unexpired_worker :
    run (NewPool 2 0 0) [.submit (some 7), .work 0 5] = some oneIdle ∧
    oneIdle.workers = [0] ∧
    ticks oneIdle 0 (10 * Second) = [10 * Second] ∧
    Sub (10 * Second) 5 ≤ oneIdle.expire ∧
    swept oneIdle (10 * Second) = [] ∧
    clean oneIdle (10 * Second) = some ({ oneIdle with workers := [] }, false) ∧
    ({ oneIdle with workers := [] } : Pool).heap = [⟨[], 5, false⟩] ∧
    Running { oneIdle with workers := [] } = 1 := by
  decide

/-- C6, as amended: `AnywayGo` on a closed pool returns `ErrPoolClosed` at once, and
with a context that is already done it returns the error of that context; every
value it returns is nil (the task is then in the channel of a worker), the error of
the supplied context or `ErrPoolClosed`, the last exactly when the pool is closed
at the call, and never `ErrLack`. -/
theorem C6_AnywayGo_results (p : Pool) (fn : f) (ctx : List Context)
    (env : List (List Step)) :
    (closed p = true → AnywayGo p fn ctx env = some (p, ErrPoolClosed)) ∧
    (∀ c rest, closed p = false → ctx = c :: rest → c.done 0 = true →
      AnywayGo p fn ctx env = some (p, error.ctx c.err)) ∧
    (∀ q e, AnywayGo p fn ctx env = some (q, e) →
      (e = ErrPoolClosed ↔ closed p = true) ∧
      (e = error.nil ∨ e = ErrPoolClosed ∨ ∃ c, ctx.head? = some c ∧ e = error.ctx c.err) ∧
      (e = error.nil → ∃ (w : Nat) (wk : Worker), q.heap[w]? = some wk ∧ fn ∈ wk.task) ∧
      e ≠ ErrLack) := by
  refine ⟨?_, ?_, ?_⟩
  · intro hc
    simp [AnywayGo, hc]
  · intro c rest hc hctx hdone
    subst hctx
    cases env <;> simp [AnywayGo, hc, spinCtx, hdone]
  · intro q e h
    unfold AnywayGo at h
    by_cases hc : closed p = true
    · simp [hc] at h
      obtain ⟨rfl, rfl⟩ := h
      exact ⟨by simp [hc], by simp, by simp, by decide⟩
    · have hc' : closed p = false := by simpa using hc
      simp only [hc', Bool.false_eq_true, if_false] at h
      have hres : (e = error.nil ∧ ∃ p1, submit p1 fn = some (q, error.nil)) ∨
          ∃ c, ctx.head? = some c ∧ e = error.ctx c.err := by
        cases ctx with
        | nil => exact Or.inl (spin_result fn env p q e h)
        | cons c rest =>
          rcases spinCtx_result fn c env 0 p q e h with h1 | h1
          · exact Or.inl h1
          · exact Or.inr ⟨c, rfl, h1⟩
      refine ⟨?_, ?_, ?_, ?_⟩
      · rcases hres with ⟨h1, _⟩ | ⟨c, _, h1⟩ <;> simp [h1, hc']
      · rcases hres with ⟨h1, _⟩ | h1
        · exact Or.inl h1
        · exact Or.inr (Or.inr h1)
      · intro hnil
        rcases hres with ⟨_, p1, h1⟩ | ⟨c, _, h1⟩
        · exact submit_nil_handed p1 q fn h1
        · rw [h1] at hnil; exact absurd hnil (by simp)
      · rcases hres with ⟨h1, _⟩ | ⟨c, _, h1⟩ <;> simp [h1]

theorem C6_AnywayGo_results_witness :
    closed oneIdle = false ∧
    AnywayGo oneIdle (some 7) [] [] =
      some ({ oneIdle with workers := [], heap := [⟨[some 7], 5, false⟩] }, error.nil) ∧
    (error.nil = ErrPoolClosed ↔ closed oneIdle = true) ∧
    error.nil ≠ ErrLack :=
  ⟨by decide, by decide,
    ((C6_AnywayGo_results oneIdle (some 7) [] []).2.2
      { oneIdle with workers := [], heap := [⟨[some 7], 5, false⟩] } error.nil (by decide)).1,
    by decide⟩

/-- C6, counterexample to the claim as stated: on the released pool `oneIdleReleased`,
reached from `NewPool(2, 0, 0)`, `AnywayGo` called without a context returns
`ErrPoolClosed`, which is neither nil nor the error of a context. -/
theorem C6_AnywayGo_returns_ErrPoolClosed :
    run (NewPool 2 0 0) [.submit (some 7), .work 0 5, .release] = some oneIdleReleased ∧
    AnywayGo oneIdleReleased (some 7) [] [] = some (oneIdleReleased, ErrPoolClosed) ∧
    ErrPoolClosed ≠ error.nil ∧ (∀ e, ErrPoolClosed ≠ error.ctx e) :=
  ⟨by decide, by decide, by decide, fun _ h => error.noConfusion h⟩

/-- C7: on every reachable pool `TryGo` of a task returns, and the task is run once:
when `submit` fails (with `ErrLack` or `ErrPoolClosed`) the caller runs it and the pool
is unchanged, otherwise the caller does not run it and it is put in the channel of
one worker, which can then take it and run it, every other worker being untouched;
a line is logged exactly in the `ErrPoolClosed` case. -/
theorem C7_TryGo_runs_task_once (size expire interval : Int) (hsize : isInt32 size)
    (steps : List Step) (p : Pool) (t : Task)
    (h : run (NewPool size expire interval) steps = some p) :
    ∃ q e r, submit p (some t) = some (q, e) ∧ TryGo p (some t) = some r ∧
      r.pool = q ∧ r.nilCall = false ∧
      (e ≠ error.nil → (e = ErrLack ∨ e = ErrPoolClosed) ∧ r.ran = [t] ∧ q = p) ∧
      (e = error.nil → r.ran = [] ∧
        ∃ w : Nat, (q.heap[w]?).map Worker.task = some [some t] ∧
          (p.heap[w]?).map Worker.task ≠ some [some t] ∧
          (∀ v : Nat, v ≠ w → q.heap[v]? = p.heap[v]?) ∧
          ∀ now, (Worker.run q w now).isSome = true) ∧
      (r.ran = [t] ↔ e ≠ error.nil) ∧
      (r.log ≠ [] ↔ e = ErrPoolClosed) := by
  have hI := Inv_run steps _ p (Inv_NewPool size expire interval hsize) h
  rcases submit_cases p (some t) hI with ⟨_, hs⟩ | ⟨_, _, _, hs⟩ | ⟨_, _, _, hs⟩ |
      ⟨_, ws, w, wk, hw, hwk, ht, hex, hs⟩
  · exact ⟨_, _, _, hs, by simp [TryGo, Go, hs]; rfl, by simp⟩
  · exact ⟨_, _, _, hs, by simp [TryGo, Go, hs]; rfl, by simp⟩
  · refine ⟨_, _, _, hs, by simp [TryGo, Go, hs]; rfl, rfl, rfl, by simp, ?_, by simp, by simp⟩
    intro _
    refine ⟨rfl, p.heap.length, by simp, by simp, ?_, ?_⟩
    · intro v hv
      simp only
      rcases Nat.lt_or_gt_of_ne hv with hlt | hgt
      · rw [List.getElem?_append_left hlt]
      · rw [List.getElem?_eq_none (by simp; omega), List.getElem?_eq_none (by omega)]
    · intro now
      simp [Worker.run]
  · refine ⟨_, _, _, hs, by simp [TryGo, Go, hs]; rfl, rfl, rfl, by simp, ?_, by simp, by simp⟩
    intro _
    have hlt : w < p.heap.length := by
      rcases List.getElem?_eq_some_iff.mp hwk with ⟨hlt, _⟩; exact hlt
    refine ⟨rfl, w, by simp [List.getElem?_set, hlt], by simp [hwk, ht], ?_, ?_⟩
    · intro v hv
      simp [List.getElem?_set, Ne.symm hv]
    · intro now
      simp [Worker.run, List.getElem?_set, hlt, hex]

theorem C7_TryGo_runs_task_once_witness :
    isInt32 1 ∧
    run (NewPool 1 0 0) [.submit (some 7)] = some oneBusy ∧
    TryGo oneBusy (some 8) = some { pool := oneBusy, ran := [8], log := [], nilCall := false } ∧
    ∃ q e r, submit oneBusy (some 8) = some (q, e) ∧ TryGo oneBusy (some 8) = some r ∧
      (r.ran = [8] ↔ e ≠ error.nil) :=
  ⟨by decide, by decide, by decide, by
    obtain ⟨q, e, r, h1, h2, _, _, _, _, h3, _⟩ :=
      C7_TryGo_runs_task_once 1 0 0 (by decide) [.submit (some 7)] oneBusy 8 (by decide)
    exact ⟨q, e, r, h1, h2, h3⟩⟩

/-- C8, as amended: the ticker that drives the sweep has the idle timeout of the pool
as its period (`expire`, or 10 seconds when that is not positive), whatever `interval`
is, so the sweep fires a whole number of idle timeouts after the creation of the pool;
and a sweep pass that comes no later than one idle timeout after an idle worker was
recycled sends that worker no sentinel and leaves `Running()` as it is. -/
theorem C8_sweep_period_is_idle_timeout (size expire interval : Int) :
    cleanTicker (NewPool size expire interval) = (if expire > 0 then expire else 10 * Second) ∧
    (∀ (created upTo T : Int), T ∈ ticks (NewPool size expire interval) created upTo →
      ∃ k : Nat, T = created + ((k : Int) + 1) * (if expire > 0 then expire else 10 * Second)) ∧
    (∀ (steps : List Step) (p : Pool) (now : Int) (w : Nat) (wk : Worker),
      isInt32 size → run (NewPool size expire interval) steps = some p → w ∈ p.workers →
      p.heap[w]? = some wk →
      now - wk.recycleTime ≤ (if expire > 0 then expire else 10 * Second) →
      ∃ q b, clean p now = some (q, b) ∧ q.heap[w]? = some wk ∧ wk.task = [] ∧
        Running q = Running p) := by
  have hper : cleanTicker (NewPool size expire interval) =
      (if expire > 0 then expire else 10 * Second) := by
    simp only [cleanTicker, NewPool, defaultMaxGoroutineIdleDuration]
    split_ifs <;> first | rfl | omega
  refine ⟨hper, ?_, ?_⟩
  · intro created upTo T hT
    rw [ticks] at hT
    obtain ⟨k, _, hk⟩ := List.mem_map.mp hT
    exact ⟨k, by rw [← hk, hper]⟩
  · intro steps p now w wk hsize h hw hwk hage
    have hI0 := Inv_NewPool size expire interval hsize
    have hI := Inv_run steps _ p hI0 h
    have hexp : p.expire = (if expire > 0 then expire else 10 * Second) := by
      rw [(run_consts steps _ p hI0 h).2.1]; exact hper
    have hpos : 0 < p.expire := by
      rw [hexp]; simp only [Second, Millisecond]; split_ifs <;> omega
    have hnot : w ∉ swept p now := by
      intro hin
      have := List.mem_takeWhile_imp hin
      simp only [expired, hwk, decide_eq_true_eq] at this
      rw [← hexp] at hage
      simp only [Sub, minDuration, maxDuration] at this
      omega
    obtain ⟨wk1, h1, h2, _⟩ := hI.idle w hw
    rw [hwk] at h1
    simp only [Option.some.injEq] at h1
    subst h1
    have hne : ¬ (p.workers.length = 0 ∧ Running p = 0 ∧ closed p = true) := by
      intro hc
      have := List.length_pos_of_mem hw
      omega
    refine ⟨{ p with heap := postAll none (swept p now) p.heap,
                     workers := p.workers.drop (max (swept p now).length 1) }, false,
      by rw [clean_eq p now hI, if_neg hne], ?_, h2, rfl⟩
    simp only
    rw [postAll_getElem?_of_not_mem none _ _ w hnot]
    exact hwk

theorem C8_sweep_period_is_idle_timeout_witness :
    isInt32 2 ∧
    run (NewPool 2 0 0) [.submit (some 7), .work 0 5] = some oneIdle ∧
    (6 : Int) - 5 ≤ 10 * Second ∧
    ∃ q b, clean oneIdle 6 = some (q, b) ∧ q.heap[0]? = some ⟨[], 5, false⟩ ∧
      (⟨[], 5, false⟩ : Worker).task = [] ∧ Running q = Running oneIdle :=
  ⟨by decide, by decide, by decide,
    (C8_sweep_period_is_idle_timeout 2 0 0).2.2 [.submit (some 7), .work 0 5]
      oneIdle 6 0 ⟨[], 5, false⟩ (by decide) (by decide) (by decide) (by decide) (by decide)⟩

/-- C8, counterexample to the claim as stated: for `NewPool(1, 50ms, 10ms)` the sweep
period is 50ms, not the 10ms of `interval`; the pool is created at time 0 and its
worker finishes its only task at 1ms, the one sweep up to 71ms fires at 50ms, and
at 71ms the channel of the worker is empty (no sentinel) and `Running()` is 1. -/
theorem C8_sweep_period_is_not_interval :
    cleanTicker (NewPool 1 (50 * Millisecond) (10 * Millisecond)) = 50 * Millisecond ∧
    (NewPool 1 (50 * Millisecond) (10 * Millisecond)).interval = 10 * Millisecond ∧
    ticks (NewPool 1 (50 * Millisecond) (10 * Millisecond)) 0
      (1 * Millisecond + 70 * Millisecond) = [50 * Millisecond] ∧
    (run (NewPool 1 (50 * Millisecond) (10 * Millisecond))
      ([.submit (some 7), .work 0 (1 * Millisecond)] ++
        (ticks (NewPool 1 (50 * Millisecond) (10 * Millisecond)) 0
          (1 * Millisecond + 70 * Millisecond)).map Step.sweep)).map
          (fun p => (Running p, p.heap)) =
      some (1, [⟨[], 1 * Millisecond, false⟩]) := by
  decide

/-- C9: `NewPool` returns an open pool with `Running() = 0`, no idle worker and no
worker at all, whose capacity is `size` when `size > 0` and 524288 otherwise, whose
idle timeout is `expire` when `expire > 0` and 10 seconds otherwise, and whose
interval is `interval` when `interval > 0` and 100 milliseconds otherwise; so
`Cap() ≥ 1` and `Free() = Cap()`. The argument `size` is an `int32`. -/
theorem C9_NewPool_defaults (size : Int) (expire interval : Int) (hsize : isInt32 size) :
    closed (NewPool size expire interval) = false ∧
    (NewPool size expire interval).once = false ∧
    Running (NewPool size expire interval) = 0 ∧
    (NewPool size expire interval).workers = [] ∧
    (NewPool size expire interval).heap = [] ∧
    Cap (NewPool size expire interval) = (if size > 0 then size else 524288) ∧
    (NewPool size expire interval).expire = (if expire > 0 then expire else 10 * 1000000000) ∧
    (NewPool size expire interval).interval = (if interval > 0 then interval else 100 * 1000000) ∧
    Cap (NewPool size expire interval) ≥ 1 ∧
    Free (NewPool size expire interval) = Cap (NewPool size expire interval) := by
  have hcap : Cap (NewPool size expire interval) = (if size > 0 then size else 524288) := by
    simp only [Cap, NewPool, defaultMaxGoroutinesSize]
    split_ifs <;> first | rfl | omega
  have hcap32 : isInt32 (Cap (NewPool size expire interval)) := by
    rw [hcap]; unfold isInt32 at *; split_ifs <;> omega
  refine ⟨by simp [closed, NewPool], rfl, rfl, rfl, rfl, hcap, ?_, ?_, ?_, ?_⟩
  · simp only [NewPool, defaultMaxGoroutineIdleDuration, Second, Millisecond]
    split_ifs <;> first | rfl | omega
  · simp only [NewPool, defaultBlockPollingInterval, Millisecond]
    split_ifs <;> first | rfl | omega
  · rw [hcap]; split_ifs <;> omega
  · have : Free (NewPool size expire interval) = wrap32 (Cap (NewPool size expire interval)) := by
      simp [Free, Cap, NewPool]
    rw [this, wrap32_id _ hcap32.1 hcap32.2]

theorem C9_NewPool_defaults_witness :
    isInt32 0 ∧ Cap (NewPool 0 0 0) = 524288 ∧ Free (NewPool 0 0 0) = 524288 ∧
    (NewPool 0 0 0).expire = 10000000000 ∧ (NewPool 0 0 0).interval = 100000000 := by
  have h := C9_NewPool_defaults 0 0 0 (by decide)
  refine ⟨by decide, ?_, ?_, ?_, ?_⟩
  · exact h.2.2.2.2.2.1
  · rw [h.2.2.2.2.2.2.2.2.2, h.2.2.2.2.2.1]; rfl
  · exact h.2.2.2.2.2.2.1
  · exact h.2.2.2.2.2.2.2.1

/-- C10: in every state reached from a pool built by `NewPool`, every idle worker has
an empty channel, no worker is twice in the idle list, no channel holds more than
its one slot, and the worker `getWorker` returns (popped or freshly allocated) has an
empty channel; so the sends of `submit`, of a sweep pass and of `Release` all find a
free slot: none of the three blocks. -/
theorem C10_sends_never_block (size expire interval : Int) (hsize : isInt32 size)
    (steps : List Step) (p : Pool)
    (h : run (NewPool size expire interval) steps = some p) :
    (∀ w ∈ p.workers, ∃ wk, p.heap[w]? = some wk ∧ wk.task = []) ∧
    p.workers.Nodup ∧
    (∀ wk ∈ p.heap, wk.task.length ≤ 1) ∧
    (∀ q w, getWorker p = (q, some w) → ∃ wk, q.heap[w]? = some wk ∧ wk.task = []) ∧
    (∀ fn, (submit p fn).isSome = true) ∧
    (∀ now, (clean p now).isSome = true) ∧
    (Release p).isSome = true := by
  have hI := Inv_run steps _ p (Inv_NewPool size expire interval hsize) h
  refine ⟨?_, hI.nodup, hI.slot, ?_, ?_, ?_, ?_⟩
  · intro w hw
    obtain ⟨wk, h1, h2, _⟩ := hI.idle w hw
    exact ⟨wk, h1, h2⟩
  · intro q w hg
    rcases List.eq_nil_or_concat p.workers with hw | ⟨ws, v, hw⟩
    · by_cases hfull : Running p ≥ Cap p
      · rw [getWorker_full p hw hfull] at hg; simp at hg
      · rw [getWorker_new p hw (by omega)] at hg
        simp only [Prod.mk.injEq, Option.some.injEq] at hg
        obtain ⟨rfl, rfl⟩ := hg
        exact ⟨⟨[], 0, false⟩, by simp, rfl⟩
    · have hw : p.workers = ws ++ [v] := by simpa using hw
      rw [getWorker_idle p ws v hw] at hg
      simp only [Prod.mk.injEq, Option.some.injEq] at hg
      obtain ⟨rfl, rfl⟩ := hg
      obtain ⟨wk, h1, h2, _⟩ := hI.idle v (by simp [hw])
      exact ⟨wk, h1, h2⟩
  · intro fn
    rcases submit_cases p fn hI with ⟨_, hs⟩ | ⟨_, _, _, hs⟩ | ⟨_, _, _, hs⟩ |
      ⟨_, _, _, _, _, _, _, _, hs⟩ <;> rw [hs] <;> rfl
  · intro now
    rw [clean_eq p now hI]
    split_ifs <;> rfl
  · rw [Release_eq p hI]
    split_ifs <;> rfl

theorem C10_sends_never_block_witness :
    isInt32 3 ∧
    run (NewPool 3 0 0) [.submit (some 7), .submit (some 8), .work 0 5, .work 1 6] =
      some twoIdle ∧
    twoIdle.workers.Nodup ∧
    (∀ fn, (submit twoIdle fn).isSome = true) ∧
    (∀ now, (clean twoIdle now).isSome = true) ∧
    (Release twoIdle).isSome = true :=
  ⟨by decide, by decide,
    (C10_sends_never_block 3 0 0 (by decide)
      [.submit (some 7), .submit (some 8), .work 0 5, .work 1 6] twoIdle (by decide)).2.1,
    (C10_sends_never_block 3 0 0 (by decide)
      [.submit (some 7), .submit (some 8), .work 0 5, .work 1 6] twoIdle (by decide)).2.2.2.2⟩

end GoPool
